import Mathlib

/-!
Shallow embedding of `src/gpe_2d_simulation.py` (2D Gross–Pitaevskii split-step
Fourier simulator) over exact real/complex arithmetic, together with theorems
settling the specification claims.

Floating-point rounding is not modelled: numpy's real (`float64`) and complex
(`complex128`) values are embedded as `ℝ` and `ℂ`, and numpy's whole-array
operations as pointwise operations on functions `Fin Nx → Fin Ny → ℂ`.
-/

namespace GPE2D

/-- `np.linspace(start, stop, num)` with the default `endpoint=True`:
`num` samples, the `i`-th being `start + i * (stop - start) / (num - 1)`
(both endpoints included).  For `num = 1` the division by zero makes the
step term `0`, so the single sample is `start`, matching numpy. -/
noncomputable def linspace (start stop : ℝ) (num : ℕ) (i : Fin num) : ℝ :=
  start + (i : ℝ) * (stop - start) / ((num : ℝ) - 1)

/-- Source line 16: `x = np.linspace(-Lx/2, Lx/2, Nx)`. -/
noncomputable def xGrid (Nx : ℕ) (Lx : ℝ) (i : Fin Nx) : ℝ :=
  linspace (-(Lx / 2)) (Lx / 2) Nx i

/-- Source line 17: `y = np.linspace(-Ly/2, Ly/2, Ny)`. -/
noncomputable def yGrid (Ny : ℕ) (Ly : ℝ) (j : Fin Ny) : ℝ :=
  linspace (-(Ly / 2)) (Ly / 2) Ny j

/-- Source line 18: `X, Y = np.meshgrid(x, y, indexing='ij')`, `X` component:
`X[i][j] = x[i]`. -/
noncomputable def Xmesh (Nx Ny : ℕ) (Lx : ℝ) (i : Fin Nx) (_j : Fin Ny) : ℝ :=
  xGrid Nx Lx i

/-- Source line 18, `Y` component: `Y[i][j] = y[j]`. -/
noncomputable def Ymesh (Nx Ny : ℕ) (Ly : ℝ) (_i : Fin Nx) (j : Fin Ny) : ℝ :=
  yGrid Ny Ly j

/-- Source lines 28–30: `V = V0 * (np.cos(np.pi * X / a)**2 + np.cos(np.pi * Y / a)**2)`. -/
noncomputable def Vpot (Nx Ny : ℕ) (Lx Ly V0 a : ℝ) (i : Fin Nx) (j : Fin Ny) : ℝ :=
  V0 * (Real.cos (Real.pi * Xmesh Nx Ny Lx i j / a) ^ 2 +
        Real.cos (Real.pi * Ymesh Nx Ny Ly i j / a) ^ 2)

/-- Source line 34: `psi = np.exp(-(X**2 + Y**2) / (2 * sigma**2)).astype(np.complex128)`:
the real Gaussian lifted to a complex value. -/
noncomputable def psi0 (Nx Ny : ℕ) (Lx Ly sigma : ℝ) (i : Fin Nx) (j : Fin Ny) : ℂ :=
  ((Real.exp (-(Xmesh Nx Ny Lx i j ^ 2 + Ymesh Nx Ny Ly i j ^ 2) / (2 * sigma ^ 2)) : ℝ) : ℂ)

/-- Discrete L2 normalization integral `np.sum(np.abs(f)**2) * dx * dy`
(source lines 35 and 57). -/
noncomputable def l2sq (Nx Ny : ℕ) (f : Fin Nx → Fin Ny → ℂ) (dx dy : ℝ) : ℝ :=
  (∑ i, ∑ j, Complex.abs (f i j) ^ 2) * dx * dy

/-- The normalization divisor `np.sqrt(np.sum(np.abs(f)**2) * dx * dy)`
(source lines 35 and 57). -/
noncomputable def normVal (Nx Ny : ℕ) (f : Fin Nx → Fin Ny → ℂ) (dx dy : ℝ) : ℝ :=
  Real.sqrt (l2sq Nx Ny f dx dy)

/-- In-place renormalization `psi /= np.sqrt(np.sum(np.abs(psi)**2) * dx * dy)`
(source lines 35 and 57–58): the whole field divided by the scalar divisor. -/
noncomputable def normalizeField (Nx Ny : ℕ) (f : Fin Nx → Fin Ny → ℂ) (dx dy : ℝ) :
    Fin Nx → Fin Ny → ℂ :=
  fun i j => f i j / ((normVal Nx Ny f dx dy : ℝ) : ℂ)

/-- A nonzero normalization divisor forces a strictly positive L2 integral
(`Real.sqrt` vanishes on every non-positive argument). -/
theorem l2sq_pos_of_normVal_ne_zero {Nx Ny : ℕ} {f : Fin Nx → Fin Ny → ℂ} {dx dy : ℝ}
    (h : normVal Nx Ny f dx dy ≠ 0) : 0 < l2sq Nx Ny f dx dy := by
  by_contra hle
  push_neg at hle
  exact h (by simpa [normVal] using Real.sqrt_eq_zero_of_nonpos hle)

/-- Core fact behind claim C1: dividing the field by its (nonzero) normalization
divisor produces a field of discrete L2 integral exactly `1`. -/
theorem l2sq_normalizeField {Nx Ny : ℕ} (f : Fin Nx → Fin Ny → ℂ) (dx dy : ℝ)
    (h : normVal Nx Ny f dx dy ≠ 0) :
    l2sq Nx Ny (normalizeField Nx Ny f dx dy) dx dy = 1 := by
  have hpos : 0 < l2sq Nx Ny f dx dy := l2sq_pos_of_normVal_ne_zero h
  have hc : normVal Nx Ny f dx dy = Real.sqrt (l2sq Nx Ny f dx dy) := rfl
  have habs : ∀ (i : Fin Nx) (j : Fin Ny),
      Complex.abs (normalizeField Nx Ny f dx dy i j) ^ 2 =
        Complex.abs (f i j) ^ 2 / l2sq Nx Ny f dx dy := by
    intro i j
    have hnn : (0 : ℝ) ≤ normVal Nx Ny f dx dy := Real.sqrt_nonneg _
    rw [normalizeField, map_div₀, Complex.abs_ofReal, abs_of_nonneg hnn, div_pow, hc,
      Real.sq_sqrt hpos.le]
  unfold l2sq
  have hsum : (∑ i, ∑ j, Complex.abs (normalizeField Nx Ny f dx dy i j) ^ 2) =
      (∑ i, ∑ j, Complex.abs (f i j) ^ 2) / l2sq Nx Ny f dx dy := by
    rw [eq_div_iff hpos.ne', Finset.sum_mul]
    refine Finset.sum_congr rfl fun i _ => ?_
    rw [Finset.sum_mul]
    refine Finset.sum_congr rfl fun j _ => ?_
    rw [habs i j, div_mul_cancel₀ _ hpos.ne']
  rw [hsum]
  have : (∑ i, ∑ j, Complex.abs (f i j) ^ 2) / l2sq Nx Ny f dx dy * dx * dy =
      l2sq Nx Ny f dx dy / l2sq Nx Ny f dx dy := by
    rw [l2sq]; ring
  rw [this, div_self hpos.ne']

/-- `np.fft.fftfreq(n, d)`: bin `i` carries frequency `i/(n·d)` for bins in the
first (non-negative-frequency) half `2·i < n`, and `(i - n)/(n·d)` for the
second (negative-frequency) half — the layout `[0, 1, …, ⌈n/2⌉-1, -⌊n/2⌋, …, -1] / (n·d)`
of numpy's documentation. -/
noncomputable def fftfreq (n : ℕ) (d : ℝ) (i : Fin n) : ℝ :=
  if 2 * (i : ℕ) < n then (i : ℝ) / (n * d) else ((i : ℝ) - n) / (n * d)

/-- Source line 38: `kx = 2 * np.pi * np.fft.fftfreq(Nx, d=dx)`. -/
noncomputable def kxArr (Nx : ℕ) (dx : ℝ) (i : Fin Nx) : ℝ :=
  2 * Real.pi * fftfreq Nx dx i

/-- Source line 39: `ky = 2 * np.pi * np.fft.fftfreq(Ny, d=dy)`. -/
noncomputable def kyArr (Ny : ℕ) (dy : ℝ) (j : Fin Ny) : ℝ :=
  2 * Real.pi * fftfreq Ny dy j

/-- Source line 40: `KX, KY = np.meshgrid(kx, ky, indexing='ij')`, `KX` component. -/
noncomputable def KXmesh (Nx Ny : ℕ) (dx : ℝ) (i : Fin Nx) (_j : Fin Ny) : ℝ :=
  kxArr Nx dx i

/-- Source line 40, `KY` component. -/
noncomputable def KYmesh (Nx Ny : ℕ) (dy : ℝ) (_i : Fin Nx) (j : Fin Ny) : ℝ :=
  kyArr Ny dy j

/-- Source line 41: `K2 = KX**2 + KY**2`. -/
noncomputable def K2arr (Nx Ny : ℕ) (dx dy : ℝ) (i : Fin Nx) (j : Fin Ny) : ℝ :=
  KXmesh Nx Ny dx i j ^ 2 + KYmesh Nx Ny dy i j ^ 2

/-- The `n`-th-root-of-unity power `exp(2πi·t/n)` (integer exponent `t`),
the building block of the DFT kernel. -/
noncomputable def w (n : ℕ) (t : ℤ) : ℂ :=
  Complex.exp (2 * (Real.pi : ℂ) * Complex.I * (t : ℂ) / (n : ℂ))

/-- `np.fft.fft2` for a `(Nx, Ny)` array (numpy's documented forward 2D DFT,
default `norm='backward'`, i.e. unnormalized):
`F[k][l] = Σ_j Σ_m f[j][m] · exp(-2πi·j·k/Nx) · exp(-2πi·m·l/Ny)`. -/
noncomputable def fft2 (Nx Ny : ℕ) (f : Fin Nx → Fin Ny → ℂ) (k : Fin Nx) (l : Fin Ny) : ℂ :=
  ∑ j, ∑ m, f j m * (w Nx (-((j : ℕ) * (k : ℕ) : ℕ)) * w Ny (-((m : ℕ) * (l : ℕ) : ℕ)))

/-- `np.fft.ifft2` for a `(Nx, Ny)` array (numpy's documented inverse 2D DFT,
scaled by `1/(Nx·Ny)`):
`f[j][m] = (1/(Nx·Ny)) Σ_k Σ_l F[k][l] · exp(2πi·j·k/Nx) · exp(2πi·m·l/Ny)`. -/
noncomputable def ifft2 (Nx Ny : ℕ) (F : Fin Nx → Fin Ny → ℂ) (j : Fin Nx) (m : Fin Ny) : ℂ :=
  (1 / ((Nx : ℂ) * (Ny : ℂ))) *
    ∑ k, ∑ l, F k l * (w Nx ((j : ℕ) * (k : ℕ) : ℕ) * w Ny ((m : ℕ) * (l : ℕ) : ℕ))

/-- Source lines 46–54, the physical part of one loop iteration (everything
before the renormalization):
line 46  `psi *= np.exp(-1j * (V + g * np.abs(psi)**2) * dt / 2)`,
line 49  `psi_k = np.fft.fft2(psi)`,
line 50  `psi_k *= np.exp(-1j * K2 * dt / 2)`,
line 51  `psi = np.fft.ifft2(psi_k)`,
line 54  `psi *= np.exp(-1j * (V + g * np.abs(psi)**2) * dt / 2)`. -/
noncomputable def stepCore (Nx Ny : ℕ) (V K2 : Fin Nx → Fin Ny → ℝ) (g dt : ℝ)
    (psi : Fin Nx → Fin Ny → ℂ) : Fin Nx → Fin Ny → ℂ :=
  let psi1 : Fin Nx → Fin Ny → ℂ := fun i j =>
    psi i j * Complex.exp (-Complex.I * (((V i j : ℝ) : ℂ) + (g : ℂ) * (Complex.abs (psi i j) : ℂ) ^ 2) * (dt : ℂ) / 2)
  let psik : Fin Nx → Fin Ny → ℂ := fun k l =>
    fft2 Nx Ny psi1 k l * Complex.exp (-Complex.I * ((K2 k l : ℝ) : ℂ) * (dt : ℂ) / 2)
  let psi2 : Fin Nx → Fin Ny → ℂ := ifft2 Nx Ny psik
  fun i j =>
    psi2 i j * Complex.exp (-Complex.I * (((V i j : ℝ) : ℂ) + (g : ℂ) * (Complex.abs (psi2 i j) : ℂ) ^ 2) * (dt : ℂ) / 2)

/-- One full iteration of the time-evolution loop, source lines 44–58:
the physical sub-steps (`stepCore`) followed by the renormalization of
lines 56–58. -/
noncomputable def stepSource (Nx Ny : ℕ) (V K2 : Fin Nx → Fin Ny → ℝ) (g dt dx dy : ℝ)
    (psi : Fin Nx → Fin Ny → ℂ) : Fin Nx → Fin Ny → ℂ :=
  normalizeField Nx Ny (stepCore Nx Ny V K2 g dt psi) dx dy

/-- The whole time loop: `steps` iterations of `stepSource` (source line 44). -/
noncomputable def evolve (Nx Ny : ℕ) (V K2 : Fin Nx → Fin Ny → ℝ) (g dt dx dy : ℝ)
    (steps : ℕ) (psi : Fin Nx → Fin Ny → ℂ) : Fin Nx → Fin Ny → ℂ :=
  (stepSource Nx Ny V K2 g dt dx dy)^[steps] psi

/-- Source line 13: `dx = Lx / Nx` (likewise `dy = Ly / Ny`). -/
noncomputable def dVal (L : ℝ) (N : ℕ) : ℝ := L / N

/-- The initial state after source lines 34–35: the Gaussian, renormalized. -/
noncomputable def psiInit (Nx Ny : ℕ) (Lx Ly sigma : ℝ) : Fin Nx → Fin Ny → ℂ :=
  normalizeField Nx Ny (psi0 Nx Ny Lx Ly sigma) (dVal Lx Nx) (dVal Ly Ny)

/-- The field after the full time loop, with the source's derived arrays
(`V` from lines 28–30, `K2` from lines 38–41) plugged in. -/
noncomputable def psiFinal (Nx Ny : ℕ) (Lx Ly V0 a sigma g dt : ℝ) (steps : ℕ) :
    Fin Nx → Fin Ny → ℂ :=
  evolve Nx Ny (Vpot Nx Ny Lx Ly V0 a) (K2arr Nx Ny (dVal Lx Nx) (dVal Ly Ny))
    g dt (dVal Lx Nx) (dVal Ly Ny) steps (psiInit Nx Ny Lx Ly sigma)

/-- Source line 61: `density = np.abs(psi)**2` applied to the final field. -/
noncomputable def densityFinal (Nx Ny : ℕ) (Lx Ly V0 a sigma g dt : ℝ) (steps : ℕ)
    (i : Fin Nx) (j : Fin Ny) : ℝ :=
  Complex.abs (psiFinal Nx Ny Lx Ly V0 a sigma g dt steps i j) ^ 2

/-- Spec §4.4 step 1/3 ("half nonlinear/potential step"): multiply the field
pointwise by `exp(-i (V + g|psi|²) dt/2)`; written from the spec's words, to be
compared with the source's loop body. -/
noncomputable def specHalfStep (Nx Ny : ℕ) (V : Fin Nx → Fin Ny → ℝ) (g dt : ℝ)
    (f : Fin Nx → Fin Ny → ℂ) : Fin Nx → Fin Ny → ℂ :=
  fun i j =>
    f i j * Complex.exp (-Complex.I * (((V i j : ℝ) : ℂ) + (g : ℂ) * (Complex.abs (f i j) : ℂ) ^ 2) * (dt : ℂ) / 2)

/-- Spec §4.4 step 2 ("full kinetic step"): forward 2D transform, elementwise
multiplication by `exp(-i K2 dt/2)`, inverse transform; written from the spec's
words. -/
noncomputable def specKineticStep (Nx Ny : ℕ) (K2 : Fin Nx → Fin Ny → ℝ) (dt : ℝ)
    (f : Fin Nx → Fin Ny → ℂ) : Fin Nx → Fin Ny → ℂ :=
  ifft2 Nx Ny (fun k l => fft2 Nx Ny f k l * Complex.exp (-Complex.I * ((K2 k l : ℝ) : ℂ) * (dt : ℂ) / 2))

/-- C1: immediately after the renormalization that ends a loop iteration
(and likewise after the initialization renormalization, which applies the same
`normalizeField` operation), the discrete L2 integral `Σ|psi|²·dx·dy` of the
updated field equals `1` exactly, provided the normalization divisor is nonzero. -/
theorem step_renormalization_invariant (Nx Ny : ℕ) (V K2 : Fin Nx → Fin Ny → ℝ)
    (g dt dx dy : ℝ) (psi f : Fin Nx → Fin Ny → ℂ)
    (h1 : normVal Nx Ny (stepCore Nx Ny V K2 g dt psi) dx dy ≠ 0)
    (h2 : normVal Nx Ny f dx dy ≠ 0) :
    l2sq Nx Ny (stepSource Nx Ny V K2 g dt dx dy psi) dx dy = 1 ∧
    l2sq Nx Ny (normalizeField Nx Ny f dx dy) dx dy = 1 :=
  ⟨l2sq_normalizeField _ _ _ h1, l2sq_normalizeField _ _ _ h2⟩

/-- Witness for C1 at the concrete input `Nx = Ny = 1`, `V = K2 = 0`, `g = 0`,
`dt = 0`, `dx = dy = 1`, `psi = f = 1`. -/
theorem step_renormalization_invariant_witness :
    (normVal 1 1 (stepCore 1 1 (fun _ _ => 0) (fun _ _ => 0) 0 0 (fun _ _ => 1)) 1 1 ≠ 0 ∧
     normVal 1 1 (fun _ _ => 1) 1 1 ≠ 0) ∧
    (l2sq 1 1 (stepSource 1 1 (fun _ _ => 0) (fun _ _ => 0) 0 0 1 1 (fun _ _ => 1)) 1 1 = 1 ∧
     l2sq 1 1 (normalizeField 1 1 (fun _ _ => 1) 1 1) 1 1 = 1) := by
  have hone : normVal 1 1 (fun _ _ => (1 : ℂ)) 1 1 ≠ 0 := by
    simp [normVal, l2sq]
  have hcore : stepCore 1 1 (fun _ _ => 0) (fun _ _ => 0) 0 0 (fun _ _ => 1) =
      fun _ _ => (1 : ℂ) := by
    funext i j
    simp [stepCore, fft2, ifft2, w]
  have h1 : normVal 1 1 (stepCore 1 1 (fun _ _ => 0) (fun _ _ => 0) 0 0 (fun _ _ => 1)) 1 1 ≠ 0 := by
    rw [hcore]; exact hone
  exact ⟨⟨h1, hone⟩,
    step_renormalization_invariant 1 1 (fun _ _ => 0) (fun _ _ => 0) 0 0 1 1
      (fun _ _ => 1) (fun _ _ => 1) h1 hone⟩

/-- C2: every iteration of the time loop is exactly the sequence
(1) half nonlinear/potential step on the pre-kinetic field, (2) kinetic step in
Fourier space, (3) the *same* half nonlinear/potential step applied to the
post-kinetic field, (4) renormalization — with both half-steps given by the one
function `specHalfStep` (same formula `V + g|psi|²`, evaluated at the two
different instants of `psi`). -/
theorem step_is_strang_sequence (Nx Ny : ℕ) (V K2 : Fin Nx → Fin Ny → ℝ)
    (g dt dx dy : ℝ) (psi : Fin Nx → Fin Ny → ℂ) :
    stepSource Nx Ny V K2 g dt dx dy psi =
      normalizeField Nx Ny
        (specHalfStep Nx Ny V g dt
          (specKineticStep Nx Ny K2 dt
            (specHalfStep Nx Ny V g dt psi))) dx dy := rfl

/-- C3 (evaluation of the code at the failing input `Nx = 4`, `Lx = 1`): the
grid built by line 16 (`np.linspace(-Lx/2, Lx/2, Nx)`, endpoint included) has
`x[Nx-1] = +Lx/2` — so the right endpoint IS a grid point — and constant
spacing `x[1] - x[0] = Lx/(Nx-1) = 1/3`, which differs from the declared
spatial step `dx = Lx/Nx = 1/4` of line 13. -/
theorem linspace_endpoint_bug :
    xGrid 4 1 ⟨3, by norm_num⟩ = 1 / 2 ∧
    xGrid 4 1 ⟨1, by norm_num⟩ - xGrid 4 1 ⟨0, by norm_num⟩ = 1 / 3 ∧
    dVal 1 4 = 1 / 4 ∧ ((1 : ℝ) / 3 ≠ 1 / 4) := by
  norm_num [xGrid, linspace, dVal]

/-- Pointwise continuous form of the potential of lines 28–30, as a function of
the coordinates: `V0 (cos²(πx/a) + cos²(πy/a))`. -/
noncomputable def Vfun (V0 a x y : ℝ) : ℝ :=
  V0 * (Real.cos (Real.pi * x / a) ^ 2 + Real.cos (Real.pi * y / a) ^ 2)

/-- Shifting the argument by one period `a` leaves `cos²(π·_/a)` unchanged
(trivially so when `a = 0`). -/
theorem cos_sq_period (x a : ℝ) :
    Real.cos (Real.pi * (x + a) / a) ^ 2 = Real.cos (Real.pi * x / a) ^ 2 := by
  rcases eq_or_ne a 0 with ha | ha
  · simp [ha]
  · have harg : Real.pi * (x + a) / a = Real.pi * x / a + Real.pi := by
      field_simp; ring
    rw [harg, Real.cos_add, Real.cos_pi, Real.sin_pi]
    ring

/-- C7: at every grid point `V[i][j] = V0·(cos²(πX/a) + cos²(πY/a))`, `V` is
non-negative (for the source's non-negative `V0`), and as a function of the
continuous coordinates it is periodic with period `a` along each axis. -/
theorem potential_formula_nonneg_periodic (Nx Ny : ℕ) (Lx Ly V0 a : ℝ) (hV0 : 0 ≤ V0)
    (i : Fin Nx) (j : Fin Ny) :
    Vpot Nx Ny Lx Ly V0 a i j = Vfun V0 a (Xmesh Nx Ny Lx i j) (Ymesh Nx Ny Ly i j) ∧
    0 ≤ Vpot Nx Ny Lx Ly V0 a i j ∧
    (∀ x y : ℝ, Vfun V0 a (x + a) y = Vfun V0 a x y ∧ Vfun V0 a x (y + a) = Vfun V0 a x y) := by
  refine ⟨rfl, ?_, ?_⟩
  · have h1 : (0 : ℝ) ≤ Real.cos (Real.pi * Xmesh Nx Ny Lx i j / a) ^ 2 := sq_nonneg _
    have h2 : (0 : ℝ) ≤ Real.cos (Real.pi * Ymesh Nx Ny Ly i j / a) ^ 2 := sq_nonneg _
    exact mul_nonneg hV0 (add_nonneg h1 h2)
  · intro x y
    constructor
    · unfold Vfun; rw [cos_sq_period]
    · unfold Vfun; rw [cos_sq_period]

/-- Witness for C7 at `Nx = Ny = 1`, `Lx = Ly = 1`, `V0 = 10`, `a = 2`
(the source's `V0` and `a`). -/
theorem potential_formula_nonneg_periodic_witness :
    (0 : ℝ) ≤ 10 ∧
    (Vpot 1 1 1 1 10 2 0 0 = Vfun 10 2 (Xmesh 1 1 1 0 0) (Ymesh 1 1 1 0 0) ∧
     0 ≤ Vpot 1 1 1 1 10 2 0 0 ∧
     (∀ x y : ℝ, Vfun 10 2 (x + 2) y = Vfun 10 2 x y ∧ Vfun 10 2 x (y + 2) = Vfun 10 2 x y)) :=
  ⟨by norm_num, potential_formula_nonneg_periodic 1 1 1 1 10 2 (by norm_num) 0 0⟩

/-- C10: every value of the initial Gaussian is a strictly positive real
(zero imaginary part), hence the initialization normalization divisor
`sqrt(Σ|psi|²·dx·dy)` is strictly positive and the division of line 35 is by a
nonzero number. -/
theorem initial_gaussian_positive (Nx Ny : ℕ) (Lx Ly sigma : ℝ)
    (hNx : 0 < Nx) (hNy : 0 < Ny) (hLx : 0 < Lx) (hLy : 0 < Ly) (_hs : 0 < sigma) :
    (∀ (i : Fin Nx) (j : Fin Ny),
        0 < (psi0 Nx Ny Lx Ly sigma i j).re ∧ (psi0 Nx Ny Lx Ly sigma i j).im = 0) ∧
    0 < normVal Nx Ny (psi0 Nx Ny Lx Ly sigma) (dVal Lx Nx) (dVal Ly Ny) := by
  have habs : ∀ (i : Fin Nx) (j : Fin Ny),
      0 < Complex.abs (psi0 Nx Ny Lx Ly sigma i j) ^ 2 := by
    intro i j
    have : Complex.abs (psi0 Nx Ny Lx Ly sigma i j) =
        Real.exp (-(Xmesh Nx Ny Lx i j ^ 2 + Ymesh Nx Ny Ly i j ^ 2) / (2 * sigma ^ 2)) := by
      rw [psi0, Complex.abs_ofReal, abs_of_pos (Real.exp_pos _)]
    rw [this]
    positivity
  constructor
  · intro i j
    constructor
    · rw [psi0, Complex.ofReal_re]; exact Real.exp_pos _
    · rw [psi0, Complex.ofReal_im]
  · have hdx : 0 < dVal Lx Nx := div_pos hLx (by exact_mod_cast hNx)
    have hdy : 0 < dVal Ly Ny := div_pos hLy (by exact_mod_cast hNy)
    have hsum : 0 < ∑ i, ∑ j, Complex.abs (psi0 Nx Ny Lx Ly sigma i j) ^ 2 := by
      haveI : Nonempty (Fin Nx) := Fin.pos_iff_nonempty.1 hNx
      haveI : Nonempty (Fin Ny) := Fin.pos_iff_nonempty.1 hNy
      exact Finset.sum_pos (fun i _ => Finset.sum_pos (fun j _ => habs i j)
        Finset.univ_nonempty) Finset.univ_nonempty
    have hl2 : 0 < l2sq Nx Ny (psi0 Nx Ny Lx Ly sigma) (dVal Lx Nx) (dVal Ly Ny) := by
      unfold l2sq
      exact mul_pos (mul_pos hsum hdx) hdy
    exact Real.sqrt_pos.2 hl2

/-- Witness for C10 at `Nx = Ny = 1`, `Lx = Ly = 1`, `sigma = 1`. -/
theorem initial_gaussian_positive_witness :
    ((0 : ℕ) < 1 ∧ (0 : ℝ) < 1) ∧
    ((∀ (i j : Fin 1), 0 < (psi0 1 1 1 1 1 i j).re ∧ (psi0 1 1 1 1 1 i j).im = 0) ∧
     0 < normVal 1 1 (psi0 1 1 1 1 1) (dVal 1 1) (dVal 1 1)) :=
  ⟨⟨by norm_num, by norm_num⟩,
   initial_gaussian_positive 1 1 1 1 1 (by norm_num) (by norm_num) (by norm_num)
     (by norm_num) (by norm_num)⟩

/-- C6: `kx` is `2π` times numpy's `fftfreq` layout for `Nx` samples of spacing
`dx`; `K2[i][j] = kx[i]² + ky[j]²` so `K2` is real and non-negative everywhere;
and the bins follow the standard FFT frequency order: zero at bin `0`, then
strictly increasing positive frequencies on the first half `2i < Nx`, then
negative frequencies (strictly increasing toward `0`, i.e. of decreasing
magnitude) on the second half `2i ≥ Nx`. -/
theorem wavenumber_layout (Nx Ny : ℕ) (dx dy : ℝ) (hdx : 0 < dx)
    (i : Fin Nx) (j : Fin Ny) :
    kxArr Nx dx i = 2 * Real.pi * fftfreq Nx dx i ∧
    K2arr Nx Ny dx dy i j = kxArr Nx dx i ^ 2 + kyArr Ny dy j ^ 2 ∧
    0 ≤ K2arr Nx Ny dx dy i j ∧
    ((i : ℕ) = 0 → kxArr Nx dx i = 0) ∧
    (0 < (i : ℕ) → 2 * (i : ℕ) < Nx → 0 < kxArr Nx dx i) ∧
    (Nx ≤ 2 * (i : ℕ) → kxArr Nx dx i < 0) ∧
    (∀ i' : Fin Nx, (i : ℕ) < (i' : ℕ) → 2 * (i' : ℕ) < Nx →
      kxArr Nx dx i < kxArr Nx dx i') ∧
    (∀ i' : Fin Nx, Nx ≤ 2 * (i : ℕ) → (i : ℕ) < (i' : ℕ) →
      kxArr Nx dx i < kxArr Nx dx i') := by
  have hNx : 0 < Nx := i.pos
  have hc : (0 : ℝ) < (Nx : ℝ) * dx := mul_pos (by exact_mod_cast hNx) hdx
  have h2pi : (0 : ℝ) < 2 * Real.pi := by positivity
  refine ⟨rfl, rfl, ?_, ?_, ?_, ?_, ?_, ?_⟩
  · exact add_nonneg (sq_nonneg _) (sq_nonneg _)
  · intro h0
    have h2 : 2 * (i : ℕ) < Nx := by omega
    have hcast : ((i : ℕ) : ℝ) = 0 := by exact_mod_cast h0
    rw [kxArr, fftfreq, if_pos h2, hcast, zero_div, mul_zero]
  · intro hpos h2
    have : fftfreq Nx dx i = (i : ℝ) / ((Nx : ℝ) * dx) := by simp [fftfreq, h2]
    rw [kxArr, this]
    have : (0 : ℝ) < (i : ℝ) := by exact_mod_cast hpos
    positivity
  · intro h2
    have h2' : ¬ (2 * (i : ℕ) < Nx) := by omega
    have hlt : ((i : ℕ) : ℝ) - (Nx : ℝ) < 0 := by
      have : (i : ℕ) < Nx := i.isLt
      have : ((i : ℕ) : ℝ) < (Nx : ℝ) := by exact_mod_cast this
      linarith
    rw [kxArr, fftfreq, if_neg h2']
    exact mul_neg_of_pos_of_neg h2pi (div_neg_of_neg_of_pos hlt hc)
  · intro i' hlt h2'
    have h2 : 2 * (i : ℕ) < Nx := by omega
    have hltR : ((i : ℕ) : ℝ) < ((i' : ℕ) : ℝ) := by exact_mod_cast hlt
    rw [kxArr, kxArr, fftfreq, fftfreq, if_pos h2, if_pos h2']
    gcongr
  · intro i' h2 hlt
    have h2i : ¬ (2 * (i : ℕ) < Nx) := by omega
    have h2i' : ¬ (2 * (i' : ℕ) < Nx) := by omega
    have hltR : ((i : ℕ) : ℝ) < ((i' : ℕ) : ℝ) := by exact_mod_cast hlt
    rw [kxArr, kxArr, fftfreq, fftfreq, if_neg h2i, if_neg h2i']
    have hsub : ((i : ℕ) : ℝ) - Nx < ((i' : ℕ) : ℝ) - Nx := by linarith
    gcongr

/-- Witness for C6 at `Nx = Ny = 4`, `dx = dy = 1`, bins `i = 1`, `j = 0`. -/
theorem wavenumber_layout_witness :
    (0 : ℝ) < 1 ∧
    (kxArr 4 1 1 = 2 * Real.pi * fftfreq 4 1 1 ∧
     K2arr 4 4 1 1 1 0 = kxArr 4 1 1 ^ 2 + kyArr 4 1 0 ^ 2 ∧
     0 ≤ K2arr 4 4 1 1 1 0 ∧
     (((1 : Fin 4) : ℕ) = 0 → kxArr 4 1 1 = 0) ∧
     (0 < ((1 : Fin 4) : ℕ) → 2 * ((1 : Fin 4) : ℕ) < 4 → 0 < kxArr 4 1 1) ∧
     (4 ≤ 2 * ((1 : Fin 4) : ℕ) → kxArr 4 1 1 < 0) ∧
     (∀ i' : Fin 4, ((1 : Fin 4) : ℕ) < (i' : ℕ) → 2 * (i' : ℕ) < 4 →
       kxArr 4 1 1 < kxArr 4 1 i') ∧
     (∀ i' : Fin 4, 4 ≤ 2 * ((1 : Fin 4) : ℕ) → ((1 : Fin 4) : ℕ) < (i' : ℕ) →
       kxArr 4 1 1 < kxArr 4 1 i')) :=
  ⟨by norm_num, wavenumber_layout 4 4 1 1 (by norm_num) 1 0⟩

theorem w_add (n : ℕ) (s t : ℤ) : w n (s + t) = w n s * w n t := by
  unfold w
  rw [← Complex.exp_add]
  congr 1
  push_cast
  ring

theorem w_pow_nat (n : ℕ) (t : ℤ) (k : ℕ) : w n (t * (k : ℤ)) = w n t ^ k := by
  unfold w
  rw [← Complex.exp_nat_mul]
  congr 1
  push_cast
  ring

theorem w_eq_one_of_dvd (n : ℕ) (t : ℤ) (h : (n : ℤ) ∣ t) : w n t = 1 := by
  rcases h with ⟨m, rfl⟩
  rcases Nat.eq_zero_or_pos n with hn | hn
  · subst hn
    unfold w
    norm_num
  · unfold w
    have hne : (n : ℂ) ≠ 0 := Nat.cast_ne_zero.2 hn.ne'
    have harg : 2 * (Real.pi : ℂ) * Complex.I * (((n : ℤ) * m : ℤ) : ℂ) / (n : ℂ) =
        (m : ℂ) * (2 * (Real.pi : ℂ) * Complex.I) := by
      push_cast
      field_simp
      ring
    rw [harg]
    exact Complex.exp_int_mul_two_pi_mul_I m

theorem w_eq_one_iff (n : ℕ) (hn : n ≠ 0) (t : ℤ) : w n t = 1 ↔ (n : ℤ) ∣ t := by
  constructor
  · intro h
    unfold w at h
    rw [Complex.exp_eq_one_iff] at h
    obtain ⟨m, hm⟩ := h
    have hne : (n : ℂ) ≠ 0 := Nat.cast_ne_zero.2 hn
    have htwo : (2 * (Real.pi : ℂ) * Complex.I) ≠ 0 :=
      mul_ne_zero (mul_ne_zero two_ne_zero (Complex.ofReal_ne_zero.2 Real.pi_ne_zero))
        Complex.I_ne_zero
    rw [div_eq_iff hne] at hm
    have hm' : (2 * (Real.pi : ℂ) * Complex.I) * (t : ℂ) =
        (2 * (Real.pi : ℂ) * Complex.I) * ((m : ℂ) * (n : ℂ)) := by
      linear_combination hm
    have hcast : (t : ℂ) = ((m * n : ℤ) : ℂ) := by
      push_cast
      exact mul_left_cancel₀ htwo hm'
    have ht : t = m * n := by exact_mod_cast hcast
    exact ⟨m, by rw [ht]; ring⟩
  · exact w_eq_one_of_dvd n t

/-- Orthogonality of the DFT kernel: summing `exp(2πi·t·k/n)` over all bins `k`
gives `n` when `n ∣ t` and `0` otherwise. -/
theorem sum_w (n : ℕ) (t : ℤ) :
    (∑ k : Fin n, w n (t * ((k : ℕ) : ℤ))) = if (n : ℤ) ∣ t then (n : ℂ) else 0 := by
  rcases Nat.eq_zero_or_pos n with hn | hn
  · subst hn
    simp
  · have hconv : ∀ k : Fin n, w n (t * ((k : ℕ) : ℤ)) = w n t ^ (k : ℕ) :=
      fun k => w_pow_nat n t (k : ℕ)
    rw [Finset.sum_congr rfl (fun k _ => hconv k),
      Fin.sum_univ_eq_sum_range (fun k => w n t ^ k) n]
    by_cases h : (n : ℤ) ∣ t
    · rw [if_pos h, w_eq_one_of_dvd n t h]
      simp
    · rw [if_neg h]
      have hz : w n t ≠ 1 := fun hone => h ((w_eq_one_iff n hn.ne' t).1 hone)
      rw [geom_sum_eq hz]
      have hpow : w n t ^ n = 1 := by
        rw [← w_pow_nat]
        exact w_eq_one_of_dvd n (t * n) ⟨t, by ring⟩
      rw [hpow, sub_self, zero_div]

/-- `n` divides the difference of two residues below `n` only when they are equal. -/
theorem fin_sub_dvd_iff (n : ℕ) (a b : Fin n) :
    ((n : ℤ) ∣ ((a : ℕ) : ℤ) - ((b : ℕ) : ℤ)) ↔ a = b := by
  constructor
  · intro h
    have ha : ((a : ℕ) : ℤ) < n := by exact_mod_cast a.isLt
    have hb : ((b : ℕ) : ℤ) < n := by exact_mod_cast b.isLt
    have ha0 : (0 : ℤ) ≤ ((a : ℕ) : ℤ) := Int.natCast_nonneg _
    have hb0 : (0 : ℤ) ≤ ((b : ℕ) : ℤ) := Int.natCast_nonneg _
    have habs : |((a : ℕ) : ℤ) - ((b : ℕ) : ℤ)| < (n : ℤ) := by
      rw [abs_sub_lt_iff]
      omega
    have hz := Int.eq_zero_of_abs_lt_dvd h habs
    have : ((a : ℕ) : ℤ) = ((b : ℕ) : ℤ) := by omega
    exact Fin.ext (by exact_mod_cast this)
  · rintro rfl
    simp

/-- The 2D DFT round trip: `ifft2 (fft2 f) = f` exactly, for every field. -/
theorem ifft2_fft2 (Nx Ny : ℕ) (f : Fin Nx → Fin Ny → ℂ) (j : Fin Nx) (m : Fin Ny) :
    ifft2 Nx Ny (fft2 Nx Ny f) j m = f j m := by
  have hNx : 0 < Nx := j.pos
  have hNy : 0 < Ny := m.pos
  have hNxC : ((Nx : ℂ)) ≠ 0 := Nat.cast_ne_zero.2 hNx.ne'
  have hNyC : ((Ny : ℂ)) ≠ 0 := Nat.cast_ne_zero.2 hNy.ne'
  -- per-(k,l) expansion of `fft2 f k l * kernel` into a double sum with
  -- combined exponents
  have hterm : ∀ (k : Fin Nx) (l : Fin Ny),
      fft2 Nx Ny f k l *
        (w Nx (((j : ℕ) * (k : ℕ) : ℕ) : ℤ) * w Ny (((m : ℕ) * (l : ℕ) : ℕ) : ℤ)) =
      ∑ j', ∑ m', f j' m' *
        (w Nx ((((j : ℕ) : ℤ) - ((j' : ℕ) : ℤ)) * ((k : ℕ) : ℤ)) *
         w Ny ((((m : ℕ) : ℤ) - ((m' : ℕ) : ℤ)) * ((l : ℕ) : ℤ))) := by
    intro k l
    unfold fft2
    rw [Finset.sum_mul]
    refine Finset.sum_congr rfl fun j' _ => ?_
    rw [Finset.sum_mul]
    refine Finset.sum_congr rfl fun m' _ => ?_
    have e1 : (((j : ℕ) : ℤ) - ((j' : ℕ) : ℤ)) * ((k : ℕ) : ℤ) =
        (((j : ℕ) * (k : ℕ) : ℕ) : ℤ) + (-(((j' : ℕ) * (k : ℕ) : ℕ) : ℤ)) := by
      push_cast
      ring
    have e2 : (((m : ℕ) : ℤ) - ((m' : ℕ) : ℤ)) * ((l : ℕ) : ℤ) =
        (((m : ℕ) * (l : ℕ) : ℕ) : ℤ) + (-(((m' : ℕ) * (l : ℕ) : ℕ) : ℤ)) := by
      push_cast
      ring
    rw [e1, e2, w_add, w_add]
    ring
  unfold ifft2
  rw [Finset.sum_congr rfl fun k _ => Finset.sum_congr rfl fun l _ => hterm k l]
  -- reorder the four nested sums so the spatial indices are outermost
  have step1 : ∀ k : Fin Nx,
      (∑ l : Fin Ny, ∑ j', ∑ m', f j' m' *
        (w Nx ((((j : ℕ) : ℤ) - ((j' : ℕ) : ℤ)) * ((k : ℕ) : ℤ)) *
         w Ny ((((m : ℕ) : ℤ) - ((m' : ℕ) : ℤ)) * ((l : ℕ) : ℤ)))) =
      ∑ j', ∑ l : Fin Ny, ∑ m', f j' m' *
        (w Nx ((((j : ℕ) : ℤ) - ((j' : ℕ) : ℤ)) * ((k : ℕ) : ℤ)) *
         w Ny ((((m : ℕ) : ℤ) - ((m' : ℕ) : ℤ)) * ((l : ℕ) : ℤ))) :=
    fun k => Finset.sum_comm
  have step2 : (∑ k : Fin Nx, ∑ j', ∑ l : Fin Ny, ∑ m', f j' m' *
        (w Nx ((((j : ℕ) : ℤ) - ((j' : ℕ) : ℤ)) * ((k : ℕ) : ℤ)) *
         w Ny ((((m : ℕ) : ℤ) - ((m' : ℕ) : ℤ)) * ((l : ℕ) : ℤ)))) =
      ∑ j', ∑ k : Fin Nx, ∑ l : Fin Ny, ∑ m', f j' m' *
        (w Nx ((((j : ℕ) : ℤ) - ((j' : ℕ) : ℤ)) * ((k : ℕ) : ℤ)) *
         w Ny ((((m : ℕ) : ℤ) - ((m' : ℕ) : ℤ)) * ((l : ℕ) : ℤ))) :=
    Finset.sum_comm
  have step3 : ∀ j' : Fin Nx, ∀ k : Fin Nx,
      (∑ l : Fin Ny, ∑ m', f j' m' *
        (w Nx ((((j : ℕ) : ℤ) - ((j' : ℕ) : ℤ)) * ((k : ℕ) : ℤ)) *
         w Ny ((((m : ℕ) : ℤ) - ((m' : ℕ) : ℤ)) * ((l : ℕ) : ℤ)))) =
      ∑ m', ∑ l : Fin Ny, f j' m' *
        (w Nx ((((j : ℕ) : ℤ) - ((j' : ℕ) : ℤ)) * ((k : ℕ) : ℤ)) *
         w Ny ((((m : ℕ) : ℤ) - ((m' : ℕ) : ℤ)) * ((l : ℕ) : ℤ))) :=
    fun j' k => Finset.sum_comm
  have step4 : ∀ j' : Fin Nx,
      (∑ k : Fin Nx, ∑ m', ∑ l : Fin Ny, f j' m' *
        (w Nx ((((j : ℕ) : ℤ) - ((j' : ℕ) : ℤ)) * ((k : ℕ) : ℤ)) *
         w Ny ((((m : ℕ) : ℤ) - ((m' : ℕ) : ℤ)) * ((l : ℕ) : ℤ)))) =
      ∑ m', ∑ k : Fin Nx, ∑ l : Fin Ny, f j' m' *
        (w Nx ((((j : ℕ) : ℤ) - ((j' : ℕ) : ℤ)) * ((k : ℕ) : ℤ)) *
         w Ny ((((m : ℕ) : ℤ) - ((m' : ℕ) : ℤ)) * ((l : ℕ) : ℤ))) :=
    fun j' => Finset.sum_comm
  have hsep : ∀ (j' : Fin Nx) (m' : Fin Ny),
      (∑ k : Fin Nx, ∑ l : Fin Ny, f j' m' *
        (w Nx ((((j : ℕ) : ℤ) - ((j' : ℕ) : ℤ)) * ((k : ℕ) : ℤ)) *
         w Ny ((((m : ℕ) : ℤ) - ((m' : ℕ) : ℤ)) * ((l : ℕ) : ℤ)))) =
      f j' m' *
        ((∑ k : Fin Nx, w Nx ((((j : ℕ) : ℤ) - ((j' : ℕ) : ℤ)) * ((k : ℕ) : ℤ))) *
         (∑ l : Fin Ny, w Ny ((((m : ℕ) : ℤ) - ((m' : ℕ) : ℤ)) * ((l : ℕ) : ℤ)))) := by
    intro j' m'
    rw [Finset.sum_mul_sum, Finset.mul_sum]
    refine Finset.sum_congr rfl fun k _ => ?_
    rw [Finset.mul_sum]
  rw [Finset.sum_congr rfl fun k _ => step1 k, step2,
    Finset.sum_congr rfl fun j' _ =>
      (Finset.sum_congr rfl fun k _ => step3 j' k),
    Finset.sum_congr rfl fun j' _ => step4 j',
    Finset.sum_congr rfl fun j' _ => Finset.sum_congr rfl fun m' _ => hsep j' m']
  -- collapse the orthogonality sums
  have hx : ∀ j' : Fin Nx,
      (∑ k : Fin Nx, w Nx ((((j : ℕ) : ℤ) - ((j' : ℕ) : ℤ)) * ((k : ℕ) : ℤ))) =
      if j = j' then (Nx : ℂ) else 0 := by
    intro j'
    rw [sum_w]
    by_cases h : j = j'
    · rw [if_pos ((fin_sub_dvd_iff Nx j j').2 h), if_pos h]
    · rw [if_neg (fun hd => h ((fin_sub_dvd_iff Nx j j').1 hd)), if_neg h]
  have hy : ∀ m' : Fin Ny,
      (∑ l : Fin Ny, w Ny ((((m : ℕ) : ℤ) - ((m' : ℕ) : ℤ)) * ((l : ℕ) : ℤ))) =
      if m = m' then (Ny : ℂ) else 0 := by
    intro m'
    rw [sum_w]
    by_cases h : m = m'
    · rw [if_pos ((fin_sub_dvd_iff Ny m m').2 h), if_pos h]
    · rw [if_neg (fun hd => h ((fin_sub_dvd_iff Ny m m').1 hd)), if_neg h]
  rw [Finset.sum_congr rfl fun j' _ => Finset.sum_congr rfl fun m' _ => by
    rw [hx j', hy m']]
  simp only [mul_ite, mul_zero, ite_mul, zero_mul, Finset.sum_ite_eq,
    Finset.mem_univ, if_true]
  have hre : f j m * ((Nx : ℂ) * (Ny : ℂ)) = ((Nx : ℂ) * (Ny : ℂ)) * f j m := by ring
  rw [one_div, hre, inv_mul_cancel_left₀ (mul_ne_zero hNxC hNyC)]

/-- The forward-DFT kernel at bin `k`, sample `j`, equals the plane wave
`exp(-i·kx[k]·(j·dx))` evaluated at the physical position `j·dx`: bin `k` of
the transform corresponds to the angular frequency `kx[k]` of line 38. -/
theorem kernel_bin_correspondence (Nx : ℕ) (dx : ℝ) (hdx : dx ≠ 0) (k j : Fin Nx) :
    w Nx (-((j : ℕ) * (k : ℕ) : ℕ)) =
      Complex.exp (-Complex.I * ((kxArr Nx dx k : ℝ) : ℂ) * (((j : ℕ) : ℂ) * ((dx : ℝ) : ℂ))) := by
  have hNx : 0 < Nx := k.pos
  have hNxC : ((Nx : ℂ)) ≠ 0 := Nat.cast_ne_zero.2 hNx.ne'
  have hdxC : ((dx : ℝ) : ℂ) ≠ 0 := Complex.ofReal_ne_zero.2 hdx
  unfold w kxArr fftfreq
  rw [Complex.exp_eq_exp_iff_exists_int]
  by_cases h : 2 * (k : ℕ) < Nx
  · refine ⟨0, ?_⟩
    rw [if_pos h]
    push_cast
    field_simp
    ring
  · refine ⟨-((j : ℕ) : ℤ), ?_⟩
    rw [if_neg h]
    push_cast
    field_simp
    ring

/-- C8: the forward/inverse 2D Fourier transforms used by the kinetic step are
a matched pair (`ifft2 (fft2 f) = f` exactly, for every field), and the `K2`
index layout matches the transform's frequency-bin ordering: the transform
kernel at bin `k` (resp. `l`) is the sampled plane wave of angular frequency
`kx[k]` (resp. `ky[l]`). -/
theorem transform_pair_matched (Nx Ny : ℕ) (dx dy : ℝ) (hdx : dx ≠ 0) (hdy : dy ≠ 0) :
    (∀ (f : Fin Nx → Fin Ny → ℂ) (j : Fin Nx) (m : Fin Ny),
        ifft2 Nx Ny (fft2 Nx Ny f) j m = f j m) ∧
    (∀ k j : Fin Nx, w Nx (-((j : ℕ) * (k : ℕ) : ℕ)) =
        Complex.exp (-Complex.I * ((kxArr Nx dx k : ℝ) : ℂ) * (((j : ℕ) : ℂ) * ((dx : ℝ) : ℂ)))) ∧
    (∀ l m : Fin Ny, w Ny (-((m : ℕ) * (l : ℕ) : ℕ)) =
        Complex.exp (-Complex.I * ((kyArr Ny dy l : ℝ) : ℂ) * (((m : ℕ) : ℂ) * ((dy : ℝ) : ℂ)))) :=
  ⟨fun f j m => ifft2_fft2 Nx Ny f j m,
   fun k j => kernel_bin_correspondence Nx dx hdx k j,
   fun l m => kernel_bin_correspondence Ny dy hdy l m⟩

/-- Witness for C8 at `Nx = Ny = 2`, `dx = dy = 1`. -/
theorem transform_pair_matched_witness :
    ((1 : ℝ) ≠ 0 ∧ (1 : ℝ) ≠ 0) ∧
    ((∀ (f : Fin 2 → Fin 2 → ℂ) (j : Fin 2) (m : Fin 2),
        ifft2 2 2 (fft2 2 2 f) j m = f j m) ∧
     (∀ k j : Fin 2, w 2 (-((j : ℕ) * (k : ℕ) : ℕ)) =
        Complex.exp (-Complex.I * ((kxArr 2 1 k : ℝ) : ℂ) * (((j : ℕ) : ℂ) * ((1 : ℝ) : ℂ)))) ∧
     (∀ l m : Fin 2, w 2 (-((m : ℕ) * (l : ℕ) : ℕ)) =
        Complex.exp (-Complex.I * ((kyArr 2 1 l : ℝ) : ℂ) * (((m : ℕ) : ℂ) * ((1 : ℝ) : ℂ))))) :=
  ⟨⟨by norm_num, by norm_num⟩, transform_pair_matched 2 2 1 1 (by norm_num) (by norm_num)⟩

/-- Frequency-bin negation `k ↦ (n - k) mod n`, the index map under which the
FFT frequency layout satisfies `kx[-k] = -kx[k]` (up to the self-paired
Nyquist bin). -/
def negIdx {n : ℕ} (k : Fin n) : Fin n :=
  ⟨(n - (k : ℕ)) % n, Nat.mod_lt _ k.pos⟩

theorem negIdx_zero_val {n : ℕ} (k : Fin n) (h : (k : ℕ) = 0) :
    ((negIdx k : Fin n) : ℕ) = 0 := by
  simp [negIdx, h]

theorem negIdx_pos_val {n : ℕ} (k : Fin n) (h : 0 < (k : ℕ)) :
    ((negIdx k : Fin n) : ℕ) = n - (k : ℕ) := by
  have hlt : n - (k : ℕ) < n := by
    have := k.isLt
    omega
  simp [negIdx, Nat.mod_eq_of_lt hlt]

theorem negIdx_involutive {n : ℕ} : Function.Involutive (negIdx (n := n)) := by
  intro k
  rcases Nat.eq_zero_or_pos (k : ℕ) with h | h
  · apply Fin.ext
    rw [negIdx_zero_val _ (negIdx_zero_val k h), h]
  · have h1 : ((negIdx k : Fin n) : ℕ) = n - (k : ℕ) := negIdx_pos_val k h
    have h2 : 0 < ((negIdx k : Fin n) : ℕ) := by
      rw [h1]
      have := k.isLt
      omega
    apply Fin.ext
    rw [negIdx_pos_val _ h2, h1]
    have := k.isLt
    omega

theorem negIdx_bijective {n : ℕ} : Function.Bijective (negIdx (n := n)) :=
  negIdx_involutive.bijective

/-- `negIdx k ≡ -k (mod n)`, with an explicit multiplier. -/
theorem negIdx_val_int {n : ℕ} (k : Fin n) :
    ∃ c : ℤ, (((negIdx k : Fin n) : ℕ) : ℤ) = -(((k : ℕ) : ℤ)) + n * c := by
  rcases Nat.eq_zero_or_pos (k : ℕ) with h | h
  · refine ⟨0, ?_⟩
    rw [negIdx_zero_val k h, h]
    norm_num
  · refine ⟨1, ?_⟩
    rw [negIdx_pos_val k h]
    have hle : (k : ℕ) ≤ n := k.isLt.le
    push_cast [hle]
    ring

/-- `w` only depends on the exponent modulo `n`. -/
theorem w_congr (n : ℕ) (s t c : ℤ) (h : t = s + n * c) : w n t = w n s := by
  subst h
  rw [w_add, w_eq_one_of_dvd n (n * c) ⟨c, rfl⟩, mul_one]

/-- `(Fin.rev i) = n - 1 - i` as an integer. -/
theorem rev_val_int {n : ℕ} (i : Fin n) :
    (((Fin.rev i : Fin n) : ℕ) : ℤ) = (n : ℤ) - 1 - ((i : ℕ) : ℤ) := by
  have h := i.isLt
  rw [Fin.val_rev]
  push_cast [Nat.succ_le_of_lt h]
  ring

/-- Bin negation flips the sign of `fftfreq` except at the self-paired bins,
so it always preserves its square. -/
theorem fftfreq_negIdx_sq (n : ℕ) (d : ℝ) (k : Fin n) :
    fftfreq n d (negIdx k) ^ 2 = fftfreq n d k ^ 2 := by
  rcases Nat.eq_zero_or_pos (k : ℕ) with h0 | h0
  · have : negIdx k = k := Fin.ext (by rw [negIdx_zero_val k h0, h0])
    rw [this]
  · have hval : ((negIdx k : Fin n) : ℕ) = n - (k : ℕ) := negIdx_pos_val k h0
    have hkn : (k : ℕ) < n := k.isLt
    have hcast : ((n - (k : ℕ) : ℕ) : ℝ) = (n : ℝ) - ((k : ℕ) : ℝ) :=
      Nat.cast_sub hkn.le
    rcases lt_trichotomy (2 * (k : ℕ)) n with h2 | h2 | h2
    · have hneg : ¬ (2 * ((negIdx k : Fin n) : ℕ) < n) := by
        rw [hval]; omega
      rw [fftfreq, fftfreq, if_neg hneg, if_pos h2, hval, hcast]
      have harg : (n : ℝ) - ((k : ℕ) : ℝ) - n = -(((k : ℕ) : ℝ)) := by ring
      rw [harg, neg_div, neg_sq]
    · have : negIdx k = k := Fin.ext (by rw [hval]; omega)
      rw [this]
    · have hpos : 2 * ((negIdx k : Fin n) : ℕ) < n := by
        rw [hval]; omega
      rw [fftfreq, fftfreq, if_pos hpos, if_neg (by omega), hval, hcast]
      have harg : (n : ℝ) - ((k : ℕ) : ℝ) = -(((k : ℕ) : ℝ) - n) := by ring
      rw [harg, neg_div, neg_sq]

/-- The squared-wavenumber mesh is invariant under bin negation in both axes. -/
theorem K2arr_negIdx (Nx Ny : ℕ) (dx dy : ℝ) (k : Fin Nx) (l : Fin Ny) :
    K2arr Nx Ny dx dy (negIdx k) (negIdx l) = K2arr Nx Ny dx dy k l := by
  unfold K2arr KXmesh KYmesh kxArr kyArr
  rw [mul_pow, mul_pow, mul_pow, mul_pow, fftfreq_negIdx_sq, fftfreq_negIdx_sq]
  ring

/-- On a grid of at least two points, index reversal negates the (endpoint
symmetric) linspace coordinate. -/
theorem xGrid_rev (N : ℕ) (L : ℝ) (hN : 2 ≤ N) (i : Fin N) :
    xGrid N L (Fin.rev i) = -(xGrid N L i) := by
  unfold xGrid linspace
  have hden : ((N : ℝ) - 1) ≠ 0 := by
    have : (2 : ℝ) ≤ (N : ℝ) := by exact_mod_cast hN
    intro h
    nlinarith
  have hrev : (((Fin.rev i : Fin N) : ℕ) : ℝ) = (N : ℝ) - 1 - ((i : ℕ) : ℝ) := by
    have hz := rev_val_int i
    exact_mod_cast congrArg (fun t : ℤ => (t : ℝ)) hz
  rw [hrev]
  field_simp
  ring

/-- Forward transform of a point-reflection-symmetric field, evaluated at
negated bins: only a (bin-dependent) unit phase factor appears. -/
theorem fft2_negIdx (Nx Ny : ℕ) (f : Fin Nx → Fin Ny → ℂ)
    (hf : ∀ (i : Fin Nx) (j : Fin Ny), f (Fin.rev i) (Fin.rev j) = f i j)
    (k : Fin Nx) (l : Fin Ny) :
    fft2 Nx Ny f (negIdx k) (negIdx l) =
      w Nx (-(((k : ℕ) : ℤ))) * w Ny (-(((l : ℕ) : ℤ))) * fft2 Nx Ny f k l := by
  obtain ⟨ck, hck⟩ := negIdx_val_int k
  obtain ⟨cl, hcl⟩ := negIdx_val_int l
  have hxw : ∀ j' : Fin Nx,
      w Nx (-(((Fin.rev j' : Fin Nx) : ℕ) * ((negIdx k : Fin Nx) : ℕ) : ℕ)) =
        w Nx (-(((k : ℕ) : ℤ))) * w Nx (-((j' : ℕ) * (k : ℕ) : ℕ)) := by
    intro j'
    rw [← w_add]
    refine w_congr Nx _ _ (((k : ℕ) : ℤ) - ck * ((Nx : ℤ) - 1 - ((j' : ℕ) : ℤ))) ?_
    have hm1 : ((((Fin.rev j' : Fin Nx) : ℕ) * ((negIdx k : Fin Nx) : ℕ) : ℕ) : ℤ) =
        ((((Fin.rev j' : Fin Nx) : ℕ)) : ℤ) * ((((negIdx k : Fin Nx) : ℕ)) : ℤ) :=
      Nat.cast_mul _ _
    have hm2 : (((j' : ℕ) * (k : ℕ) : ℕ) : ℤ) = (((j' : ℕ)) : ℤ) * (((k : ℕ)) : ℤ) :=
      Nat.cast_mul _ _
    rw [hm1, hm2, rev_val_int j', hck]
    ring
  have hyw : ∀ m' : Fin Ny,
      w Ny (-(((Fin.rev m' : Fin Ny) : ℕ) * ((negIdx l : Fin Ny) : ℕ) : ℕ)) =
        w Ny (-(((l : ℕ) : ℤ))) * w Ny (-((m' : ℕ) * (l : ℕ) : ℕ)) := by
    intro m'
    rw [← w_add]
    refine w_congr Ny _ _ (((l : ℕ) : ℤ) - cl * ((Ny : ℤ) - 1 - ((m' : ℕ) : ℤ))) ?_
    have hm1 : ((((Fin.rev m' : Fin Ny) : ℕ) * ((negIdx l : Fin Ny) : ℕ) : ℕ) : ℤ) =
        ((((Fin.rev m' : Fin Ny) : ℕ)) : ℤ) * ((((negIdx l : Fin Ny) : ℕ)) : ℤ) :=
      Nat.cast_mul _ _
    have hm2 : (((m' : ℕ) * (l : ℕ) : ℕ) : ℤ) = (((m' : ℕ)) : ℤ) * (((l : ℕ)) : ℤ) :=
      Nat.cast_mul _ _
    rw [hm1, hm2, rev_val_int m', hcl]
    ring
  unfold fft2
  have houter : ∀ (H : Fin Nx → ℂ), (∑ j', H j') = ∑ j', H (Fin.rev j') :=
    fun H => (Function.Bijective.sum_comp Fin.rev_bijective H).symm
  have hinner : ∀ (H : Fin Ny → ℂ), (∑ m', H m') = ∑ m', H (Fin.rev m') :=
    fun H => (Function.Bijective.sum_comp Fin.rev_bijective H).symm
  rw [houter, Finset.sum_congr rfl fun j' _ => hinner _, Finset.mul_sum]
  refine Finset.sum_congr rfl fun j' _ => ?_
  rw [Finset.mul_sum]
  refine Finset.sum_congr rfl fun m' _ => ?_
  rw [hf j' m', hxw j', hyw m']
  ring

/-- The kinetic step (spec §4.4 step 2, identical to code lines 49–51)
preserves point-reflection symmetry of the field, because `K2` is invariant
under bin negation and the DFT intertwines index reversal with bin negation. -/
theorem specKineticStep_sym (Nx Ny : ℕ) (K2 : Fin Nx → Fin Ny → ℝ) (dt : ℝ)
    (f : Fin Nx → Fin Ny → ℂ)
    (hK2 : ∀ (k : Fin Nx) (l : Fin Ny), K2 (negIdx k) (negIdx l) = K2 k l)
    (hf : ∀ (i : Fin Nx) (j : Fin Ny), f (Fin.rev i) (Fin.rev j) = f i j)
    (i : Fin Nx) (j : Fin Ny) :
    specKineticStep Nx Ny K2 dt f (Fin.rev i) (Fin.rev j) =
      specKineticStep Nx Ny K2 dt f i j := by
  unfold specKineticStep ifft2
  congr 1
  have houter : ∀ (H : Fin Nx → ℂ), (∑ k, H k) = ∑ k, H (negIdx k) :=
    fun H => (Function.Bijective.sum_comp negIdx_bijective H).symm
  have hinner : ∀ (H : Fin Ny → ℂ), (∑ l, H l) = ∑ l, H (negIdx l) :=
    fun H => (Function.Bijective.sum_comp negIdx_bijective H).symm
  rw [houter, Finset.sum_congr rfl fun k _ => hinner _]
  refine Finset.sum_congr rfl fun k _ => Finset.sum_congr rfl fun l _ => ?_
  obtain ⟨ck, hck⟩ := negIdx_val_int k
  obtain ⟨cl, hcl⟩ := negIdx_val_int l
  have hxw : w Nx ((((Fin.rev i : Fin Nx) : ℕ) * ((negIdx k : Fin Nx) : ℕ) : ℕ)) =
      w Nx ((((k : ℕ)) : ℤ)) * w Nx (((i : ℕ) * (k : ℕ) : ℕ)) := by
    rw [← w_add]
    refine w_congr Nx _ _ (ck * ((Nx : ℤ) - 1 - ((i : ℕ) : ℤ)) - ((k : ℕ) : ℤ)) ?_
    have hm1 : ((((Fin.rev i : Fin Nx) : ℕ) * ((negIdx k : Fin Nx) : ℕ) : ℕ) : ℤ) =
        ((((Fin.rev i : Fin Nx) : ℕ)) : ℤ) * ((((negIdx k : Fin Nx) : ℕ)) : ℤ) :=
      Nat.cast_mul _ _
    have hm2 : (((i : ℕ) * (k : ℕ) : ℕ) : ℤ) = (((i : ℕ)) : ℤ) * (((k : ℕ)) : ℤ) :=
      Nat.cast_mul _ _
    rw [hm1, hm2, rev_val_int i, hck]
    ring
  have hyw : w Ny ((((Fin.rev j : Fin Ny) : ℕ) * ((negIdx l : Fin Ny) : ℕ) : ℕ)) =
      w Ny ((((l : ℕ)) : ℤ)) * w Ny (((j : ℕ) * (l : ℕ) : ℕ)) := by
    rw [← w_add]
    refine w_congr Ny _ _ (cl * ((Ny : ℤ) - 1 - ((j : ℕ) : ℤ)) - ((l : ℕ) : ℤ)) ?_
    have hm1 : ((((Fin.rev j : Fin Ny) : ℕ) * ((negIdx l : Fin Ny) : ℕ) : ℕ) : ℤ) =
        ((((Fin.rev j : Fin Ny) : ℕ)) : ℤ) * ((((negIdx l : Fin Ny) : ℕ)) : ℤ) :=
      Nat.cast_mul _ _
    have hm2 : (((j : ℕ) * (l : ℕ) : ℕ) : ℤ) = (((j : ℕ)) : ℤ) * (((l : ℕ)) : ℤ) :=
      Nat.cast_mul _ _
    rw [hm1, hm2, rev_val_int j, hcl]
    ring
  simp only []
  rw [hK2 k l, fft2_negIdx Nx Ny f hf k l, hxw, hyw]
  have hxc : w Nx (-(((k : ℕ) : ℤ))) * w Nx ((((k : ℕ)) : ℤ)) = 1 := by
    rw [← w_add, neg_add_cancel]
    unfold w
    norm_num
  have hyc : w Ny (-(((l : ℕ) : ℤ))) * w Ny ((((l : ℕ)) : ℤ)) = 1 := by
    rw [← w_add, neg_add_cancel]
    unfold w
    norm_num
  have hre : w Nx (-(((k : ℕ) : ℤ))) * w Ny (-(((l : ℕ) : ℤ))) * fft2 Nx Ny f k l *
        Complex.exp (-Complex.I * ((K2 k l : ℝ) : ℂ) * (dt : ℂ) / 2) *
        (w Nx ((((k : ℕ)) : ℤ)) * w Nx (((i : ℕ) * (k : ℕ) : ℕ)) *
         (w Ny ((((l : ℕ)) : ℤ)) * w Ny (((j : ℕ) * (l : ℕ) : ℕ)))) =
      (w Nx (-(((k : ℕ) : ℤ))) * w Nx ((((k : ℕ)) : ℤ))) *
      (w Ny (-(((l : ℕ) : ℤ))) * w Ny ((((l : ℕ)) : ℤ))) *
      (fft2 Nx Ny f k l * Complex.exp (-Complex.I * ((K2 k l : ℝ) : ℂ) * (dt : ℂ) / 2) *
        (w Nx (((i : ℕ) * (k : ℕ) : ℕ)) * w Ny (((j : ℕ) * (l : ℕ) : ℕ)))) := by
    ring
  rw [hre, hxc, hyc, one_mul, one_mul]

theorem yGrid_rev (N : ℕ) (L : ℝ) (hN : 2 ≤ N) (j : Fin N) :
    yGrid N L (Fin.rev j) = -(yGrid N L j) :=
  xGrid_rev N L hN j

/-- The potential/nonlinear half-step preserves point-reflection symmetry. -/
theorem specHalfStep_sym (Nx Ny : ℕ) (V : Fin Nx → Fin Ny → ℝ) (g dt : ℝ)
    (f : Fin Nx → Fin Ny → ℂ)
    (hV : ∀ (i : Fin Nx) (j : Fin Ny), V (Fin.rev i) (Fin.rev j) = V i j)
    (hf : ∀ (i : Fin Nx) (j : Fin Ny), f (Fin.rev i) (Fin.rev j) = f i j)
    (i : Fin Nx) (j : Fin Ny) :
    specHalfStep Nx Ny V g dt f (Fin.rev i) (Fin.rev j) =
      specHalfStep Nx Ny V g dt f i j := by
  unfold specHalfStep
  rw [hf, hV]

/-- Renormalization preserves point-reflection symmetry (the divisor is one
global scalar). -/
theorem normalizeField_sym (Nx Ny : ℕ) (f : Fin Nx → Fin Ny → ℂ) (dx dy : ℝ)
    (hf : ∀ (i : Fin Nx) (j : Fin Ny), f (Fin.rev i) (Fin.rev j) = f i j)
    (i : Fin Nx) (j : Fin Ny) :
    normalizeField Nx Ny f dx dy (Fin.rev i) (Fin.rev j) =
      normalizeField Nx Ny f dx dy i j := by
  unfold normalizeField
  rw [hf]

/-- One full loop iteration preserves point-reflection symmetry, given a
symmetric potential and a bin-negation-invariant `K2`. -/
theorem stepSource_sym (Nx Ny : ℕ) (V K2 : Fin Nx → Fin Ny → ℝ) (g dt dx dy : ℝ)
    (f : Fin Nx → Fin Ny → ℂ)
    (hV : ∀ (i : Fin Nx) (j : Fin Ny), V (Fin.rev i) (Fin.rev j) = V i j)
    (hK2 : ∀ (k : Fin Nx) (l : Fin Ny), K2 (negIdx k) (negIdx l) = K2 k l)
    (hf : ∀ (i : Fin Nx) (j : Fin Ny), f (Fin.rev i) (Fin.rev j) = f i j)
    (i : Fin Nx) (j : Fin Ny) :
    stepSource Nx Ny V K2 g dt dx dy f (Fin.rev i) (Fin.rev j) =
      stepSource Nx Ny V K2 g dt dx dy f i j := by
  have hdef : stepSource Nx Ny V K2 g dt dx dy f =
      normalizeField Nx Ny
        (specHalfStep Nx Ny V g dt
          (specKineticStep Nx Ny K2 dt (specHalfStep Nx Ny V g dt f))) dx dy := rfl
  rw [hdef]
  have h1 := specHalfStep_sym Nx Ny V g dt f hV hf
  have h2 := specKineticStep_sym Nx Ny K2 dt (specHalfStep Nx Ny V g dt f) hK2 h1
  have h3 := specHalfStep_sym Nx Ny V g dt
    (specKineticStep Nx Ny K2 dt (specHalfStep Nx Ny V g dt f)) hV h2
  exact normalizeField_sym Nx Ny _ dx dy h3 i j

/-- The whole time loop preserves point-reflection symmetry. -/
theorem evolve_sym (Nx Ny : ℕ) (V K2 : Fin Nx → Fin Ny → ℝ) (g dt dx dy : ℝ)
    (hV : ∀ (i : Fin Nx) (j : Fin Ny), V (Fin.rev i) (Fin.rev j) = V i j)
    (hK2 : ∀ (k : Fin Nx) (l : Fin Ny), K2 (negIdx k) (negIdx l) = K2 k l)
    (steps : ℕ) (f : Fin Nx → Fin Ny → ℂ)
    (hf : ∀ (i : Fin Nx) (j : Fin Ny), f (Fin.rev i) (Fin.rev j) = f i j) :
    ∀ (i : Fin Nx) (j : Fin Ny),
      evolve Nx Ny V K2 g dt dx dy steps f (Fin.rev i) (Fin.rev j) =
        evolve Nx Ny V K2 g dt dx dy steps f i j := by
  induction steps generalizing f with
  | zero => simpa [evolve] using hf
  | succ n ih =>
      have hiter : evolve Nx Ny V K2 g dt dx dy (n + 1) f =
          evolve Nx Ny V K2 g dt dx dy n (stepSource Nx Ny V K2 g dt dx dy f) := by
        unfold evolve
        rw [Function.iterate_succ_apply]
      rw [hiter]
      exact ih (stepSource Nx Ny V K2 g dt dx dy f)
        (stepSource_sym Nx Ny V K2 g dt dx dy f hV hK2 hf)

/-- The initial Gaussian is point-reflection symmetric (the endpoint-inclusive
grid is symmetric under index reversal). -/
theorem psi0_sym (Nx Ny : ℕ) (Lx Ly sigma : ℝ) (hNx : 2 ≤ Nx) (hNy : 2 ≤ Ny)
    (i : Fin Nx) (j : Fin Ny) :
    psi0 Nx Ny Lx Ly sigma (Fin.rev i) (Fin.rev j) = psi0 Nx Ny Lx Ly sigma i j := by
  unfold psi0 Xmesh Ymesh
  rw [xGrid_rev Nx Lx hNx i, yGrid_rev Ny Ly hNy j, neg_sq, neg_sq]

/-- The cosine-squared potential is point-reflection symmetric on the grid. -/
theorem Vpot_sym (Nx Ny : ℕ) (Lx Ly V0 a : ℝ) (hNx : 2 ≤ Nx) (hNy : 2 ≤ Ny)
    (i : Fin Nx) (j : Fin Ny) :
    Vpot Nx Ny Lx Ly V0 a (Fin.rev i) (Fin.rev j) = Vpot Nx Ny Lx Ly V0 a i j := by
  unfold Vpot Xmesh Ymesh
  rw [xGrid_rev Nx Lx hNx i, yGrid_rev Ny Ly hNy j, mul_neg, mul_neg,
    neg_div, neg_div, Real.cos_neg, Real.cos_neg]

/-- C9: for the centered Gaussian initial state and the cosine-squared
potential — both symmetric under the point reflection `(x, y) ↦ (-x, -y)`,
realized on the (endpoint-inclusive) grid by index reversal in each axis —
the output density after the full time loop is itself symmetric under that
reflection at every grid point. -/
theorem final_density_reflection_symmetric (Nx Ny : ℕ) (Lx Ly V0 a sigma g dt : ℝ)
    (steps : ℕ) (hNx : 2 ≤ Nx) (hNy : 2 ≤ Ny) (i : Fin Nx) (j : Fin Ny) :
    densityFinal Nx Ny Lx Ly V0 a sigma g dt steps (Fin.rev i) (Fin.rev j) =
      densityFinal Nx Ny Lx Ly V0 a sigma g dt steps i j := by
  have hV := Vpot_sym Nx Ny Lx Ly V0 a hNx hNy
  have hK2 := fun (k : Fin Nx) (l : Fin Ny) =>
    K2arr_negIdx Nx Ny (dVal Lx Nx) (dVal Ly Ny) k l
  have h0 := psi0_sym Nx Ny Lx Ly sigma hNx hNy
  have hinit := fun (i : Fin Nx) (j : Fin Ny) =>
    normalizeField_sym Nx Ny (psi0 Nx Ny Lx Ly sigma) (dVal Lx Nx) (dVal Ly Ny) h0 i j
  have hfin := evolve_sym Nx Ny (Vpot Nx Ny Lx Ly V0 a)
    (K2arr Nx Ny (dVal Lx Nx) (dVal Ly Ny)) g dt (dVal Lx Nx) (dVal Ly Ny)
    hV hK2 steps (psiInit Nx Ny Lx Ly sigma) hinit
  unfold densityFinal psiFinal
  rw [hfin i j]

/-- Witness for C9 at `Nx = Ny = 2`, unit scalars, one step, grid point `(0, 0)`. -/
theorem final_density_reflection_symmetric_witness :
    ((2 : ℕ) ≤ 2 ∧ (2 : ℕ) ≤ 2) ∧
    densityFinal 2 2 1 1 1 1 1 1 1 1 (Fin.rev 0) (Fin.rev 0) =
      densityFinal 2 2 1 1 1 1 1 1 1 1 0 0 :=
  ⟨⟨by norm_num, by norm_num⟩,
   final_density_reflection_symmetric 2 2 1 1 1 1 1 1 1 1 (by norm_num) (by norm_num) 0 0⟩

/-- The only Python exception the script's setup can actually raise:
`ZeroDivisionError` (from scalar division by zero).  The script defines no
`InvalidConfiguration` or `NumericalInstability` error and contains no
`raise`, `try` or validation code. -/
inductive PyError where
  | zeroDivision

/-- The state threaded through the time loop: the arrays computed during
setup (lines 9–41) plus the evolving field. -/
structure SimState (Nx Ny : ℕ) where
  V : Fin Nx → Fin Ny → ℝ
  K2 : Fin Nx → Fin Ny → ℝ
  g : ℝ
  dt : ℝ
  dx : ℝ
  dy : ℝ
  psi : Fin Nx → Fin Ny → ℂ

/-- Setup, lines 9–41, in the monad of Python exceptions.  The raising
operations, in execution order, are: `dx = Lx / Nx` (line 13) and
`dy = Ly / Ny` (line 14), which raise `ZeroDivisionError` when `Nx = 0`
(resp. `Ny = 0`); and `np.fft.fftfreq(N, d)` (lines 38–39), whose scalar
`1.0 / (n * d)` raises `ZeroDivisionError` when `d = 0`, i.e. when
`Lx / Nx = 0` (resp. `Ly / Ny = 0`).  Every other setup operation is a numpy
whole-array operation and raises nothing: with `a = 0` or `sigma = 0` numpy
emits a `RuntimeWarning` and produces non-finite values, but no exception. -/
noncomputable def setupE (Nx Ny : ℕ) (Lx Ly a sigma g dt V0 : ℝ) :
    Except PyError (SimState Nx Ny) :=
  if Nx = 0 then .error .zeroDivision
  else if Ny = 0 then .error .zeroDivision
  else if Lx / (Nx : ℝ) = 0 then .error .zeroDivision
  else if Ly / (Ny : ℝ) = 0 then .error .zeroDivision
  else .ok
    { V := Vpot Nx Ny Lx Ly V0 a
      K2 := K2arr Nx Ny (dVal Lx Nx) (dVal Ly Ny)
      g := g
      dt := dt
      dx := dVal Lx Nx
      dy := dVal Ly Ny
      psi := psiInit Nx Ny Lx Ly sigma }

/-- One loop iteration (lines 46–58) in the exception monad.  None of the
numpy operations in the body raises a Python exception: elementwise `exp`,
`abs`, multiplication, `fft2`/`ifft2`, scalar `sqrt`, and array-by-scalar
division are all total — in particular `psi /= norm` with `norm == 0.0` emits
at most a `RuntimeWarning` and produces non-finite values, it does not raise —
so the body always returns `ok`. -/
noncomputable def stepE (Nx Ny : ℕ) (s : SimState Nx Ny) :
    Except PyError (SimState Nx Ny) :=
  let psi1 : Fin Nx → Fin Ny → ℂ := fun i j =>
    s.psi i j * Complex.exp (-Complex.I * (((s.V i j : ℝ) : ℂ) + (s.g : ℂ) * (Complex.abs (s.psi i j) : ℂ) ^ 2) * (s.dt : ℂ) / 2)
  let psik : Fin Nx → Fin Ny → ℂ := fun k l =>
    fft2 Nx Ny psi1 k l * Complex.exp (-Complex.I * ((s.K2 k l : ℝ) : ℂ) * (s.dt : ℂ) / 2)
  let psi2 : Fin Nx → Fin Ny → ℂ := ifft2 Nx Ny psik
  let psi3 : Fin Nx → Fin Ny → ℂ := fun i j =>
    psi2 i j * Complex.exp (-Complex.I * (((s.V i j : ℝ) : ℂ) + (s.g : ℂ) * (Complex.abs (psi2 i j) : ℂ) ^ 2) * (s.dt : ℂ) / 2)
  let norm : ℝ := Real.sqrt ((∑ i, ∑ j, Complex.abs (psi3 i j) ^ 2) * s.dx * s.dy)
  .ok { s with psi := fun i j => psi3 i j / ((norm : ℝ) : ℂ) }

/-- The time loop of line 44 in the exception monad. -/
noncomputable def loopE (Nx Ny : ℕ) : ℕ → SimState Nx Ny → Except PyError (SimState Nx Ny)
  | 0, s => .ok s
  | t + 1, s => stepE Nx Ny s >>= loopE Nx Ny t

/-- The whole program (setup then `steps` loop iterations) in the exception
monad. -/
noncomputable def runE (Nx Ny : ℕ) (Lx Ly a sigma g dt V0 : ℝ) (steps : ℕ) :
    Except PyError (SimState Nx Ny) :=
  setupE Nx Ny Lx Ly a sigma g dt V0 >>= loopE Nx Ny steps

/-- The exception-monad loop body is the pure source step: it never raises. -/
theorem stepE_eq (Nx Ny : ℕ) (s : SimState Nx Ny) :
    stepE Nx Ny s =
      .ok { s with psi := stepSource Nx Ny s.V s.K2 s.g s.dt s.dx s.dy s.psi } := rfl

theorem loopE_isOk (Nx Ny : ℕ) (t : ℕ) (s : SimState Nx Ny) :
    (loopE Nx Ny t s).isOk = true := by
  induction t generalizing s with
  | zero => rfl
  | succ n ih =>
      rw [loopE, stepE_eq]
      exact ih _

/-- Successful setup feeds the loop directly (monad-bind computation rule). -/
theorem ok_bind_loopE (Nx Ny : ℕ) (t : ℕ) (s : SimState Nx Ny) :
    (Except.ok s >>= loopE Nx Ny t) = loopE Nx Ny t s := rfl

/-- C4 counterexample: the configuration `sigma = -1` (a non-positive
initial-width parameter, which the claim says must raise `InvalidConfiguration`
eagerly at setup) raises no error at all — setup succeeds and the full
2000-iteration loop completes and returns a final state. -/
theorem invalid_configuration_not_raised :
    (runE 2 2 1 1 1 (-1) 1 1 10 2000).isOk = true := by
  unfold runE setupE
  rw [if_neg (by norm_num : ¬ ((2 : ℕ) = 0)), if_neg (by norm_num : ¬ ((2 : ℕ) = 0)),
    if_neg (by norm_num : ¬ ((1 : ℝ) / (((2 : ℕ) : ℝ)) = 0)),
    if_neg (by norm_num : ¬ ((1 : ℝ) / (((2 : ℕ) : ℝ)) = 0))]
  rw [ok_bind_loopE]
  exact loopE_isOk 2 2 2000 _

/-- C4 amended: the script performs no configuration validation and defines no
`InvalidConfiguration` error.  The only eager setup failure is the Python
`ZeroDivisionError` from `dx = Lx/Nx` (line 13) when `Nx = 0`, which does fire
before any loop iteration (the loop is never entered); a non-positive `sigma`
(shown: `sigma = -1`) raises nothing — setup succeeds and the whole loop runs
(and `a = 0`, non-positive `Lx`, `Ly` likewise raise no Python exception apart
from the `fftfreq` zero division when `Lx/Nx = 0`). -/
theorem setup_validation_behaviour (Ny : ℕ) (Lx Ly a sigma g dt V0 : ℝ) (steps : ℕ) :
    runE 0 Ny Lx Ly a sigma g dt V0 steps = .error .zeroDivision ∧
    (runE 2 2 1 1 1 (-1) 1 1 10 2000).isOk = true := by
  constructor
  · unfold runE setupE
    rw [if_pos rfl]
    rfl
  · unfold runE setupE
    rw [if_neg (by norm_num : ¬ ((2 : ℕ) = 0)), if_neg (by norm_num : ¬ ((2 : ℕ) = 0)),
      if_neg (by norm_num : ¬ ((1 : ℝ) / (((2 : ℕ) : ℝ)) = 0)),
      if_neg (by norm_num : ¬ ((1 : ℝ) / (((2 : ℕ) : ℝ)) = 0))]
    rw [ok_bind_loopE]
    exact loopE_isOk 2 2 2000 _

/-- C5 counterexample: on a 1×1 grid with the identically-zero field, the
iteration's normalization divisor (the norm of the pre-normalization field
`stepCore …`) is exactly `0`, yet the loop body raises nothing and iteration
continues — three further iterations complete and return `ok`. -/
theorem numerical_instability_not_raised :
    normVal 1 1 (stepCore 1 1 (fun _ _ => 0) (fun _ _ => 0) 1 1 (fun _ _ => 0)) 1 1 = 0 ∧
    (loopE 1 1 3 ⟨fun _ _ => 0, fun _ _ => 0, 1, 1, 1, 1, fun _ _ => 0⟩).isOk = true := by
  constructor
  · have hz : stepCore 1 1 (fun _ _ => 0) (fun _ _ => 0) 1 1 (fun _ _ => 0) =
        fun _ _ => (0 : ℂ) := by
      funext i j
      simp [stepCore, fft2, ifft2]
    rw [hz]
    simp [normVal, l2sq]
  · exact loopE_isOk 1 1 3 _

/-- C5 amended: the loop body contains no instability guard and never raises
any error: it always returns `ok`, performing the renormalization division by
the unchecked divisor even when that divisor is zero.  (No
`NumericalInstability` error exists in the program; in IEEE arithmetic the
non-finite values produced by a zero divisor simply propagate into subsequent
iterations and the output density.) -/
theorem loop_body_never_raises (Nx Ny : ℕ) (s : SimState Nx Ny) :
    stepE Nx Ny s =
      Except.ok { s with
        psi := normalizeField Nx Ny (stepCore Nx Ny s.V s.K2 s.g s.dt s.psi) s.dx s.dy } :=
  stepE_eq Nx Ny s

end GPE2D
